import Mathlib

/-!
Verification of the ZetaStitcher fusion orchestrator
(`src/stitcher/fuse_runner.py`) and the virtual tile reader
(`src/stitcher/tiffwrapper.py`) through a shallow embedding.

Python integers are modelled as `ℤ` (or `ℕ` where the source value is a
count); Python `//` and `%` on a positive divisor agree with `Int.ediv` /
`Int.emod`, which are the default `/` and `%` on `ℤ` here.  The extended
precision accumulation values handled by `to_dtype` are modelled as `ℚ`:
on the exact integers the claims quantify over, every float32/float64
operation involved is exact, so the rational model is faithful there.
Side effects of `FuseRunner.run` (file deletion, buffer allocation,
consumer lifecycle, queue puts, file appends) are modelled as an explicit
event trace.
-/

/-- A row of the tile position table (`fm.data_frame`): identifier `path`
(modelled as a numeric id), global origin `Zs`, `Ys`, `Xs` and frame count
`nfrms`. -/
structure Tile where
  path : ℕ
  Zs : ℤ
  Ys : ℤ
  Xs : ℤ
  nfrms : ℤ
deriving DecidableEq, Repr

/-- One overlap record returned by `fm.overlaps(index)`: only the `Z_from` /
`Z_to` columns take part in the clipping logic of `FuseRunner.run`
(lines 150-158). -/
structure Overlap where
  Z_from : ℤ
  Z_to : ℤ
deriving DecidableEq, Repr

/-- The payload of one `q.put([slice, top_left, overlaps])`: the tile-local
frame range `[zFrom, zTo)` actually read, the chunk-local placement
`top_left` and the clipped overlap records. -/
structure Placement where
  zFrom : ℤ
  zTo : ℤ
  topLeft : ℤ × ℤ × ℤ
  overlaps : List Overlap
deriving DecidableEq, Repr

/-- The mutable window state of a `FuseRunner`: `zmin` and `zmax`
(`zmax = none` models Python `None`). -/
structure RunnerState where
  zmin : ℤ
  zmax : Option ℤ
deriving DecidableEq, Repr

/-- Observable side effects of `FuseRunner.run`, in program order. -/
inductive Event where
  | removeOutput
  | allocBuffer (shape : List ℤ)
  | startConsumer
  | enqueue (tileIdx : ℕ) (zFrom zTo : ℤ) (topLeft : ℤ × ℤ × ℤ) (overlaps : List Overlap)
  | sentinel
  | join
  | append (bigtiff : Bool)
deriving DecidableEq, Repr

/-- The error raised when `n_frames_in_ram` is zero: Python evaluates
`self.output_shape[0] // n_frames_in_ram` and raises `ZeroDivisionError`. -/
inductive RunError where
  | zeroDivision
deriving DecidableEq, Repr

/-- Environment of a run: everything `FuseRunner.run` reads that is not the
`zmin`/`zmax` window state.  `fullThickness`, `fullHeight`, `fullWidth` come
from the `FileMatrix`; `firstTileShape` is `f.shape` of the first tile;
`itemsize` is `self.dtype.itemsize`; `nFramesInRam` is the already computed
memory budget `int(ram / xy_size / 1.5)`; `overlapsOf` is the overlap lookup
`fm.overlaps`, keyed by tile position in the table. -/
structure RunConfig where
  fullThickness : ℤ
  firstTileShape : List ℤ
  fullHeight : ℤ
  fullWidth : ℤ
  itemsize : ℤ
  nFramesInRam : ℤ
  tiles : List Tile
  overlapsOf : ℕ → List Overlap

/- ## fuse_runner.py, `to_dtype` (lines 20-23) -/

/-- `np.rint` on one exact rational value: round to nearest, ties to even. -/
def rintQ (x : ℚ) : ℚ :=
  let n : ℤ := ⌊x⌋
  let r : ℚ := x - (n : ℚ)
  if r < 1 / 2 then (n : ℚ)
  else if 1 / 2 < r then ((n + 1 : ℤ) : ℚ)
  else if Even n then (n : ℚ) else ((n + 1 : ℤ) : ℚ)

/-- Float-to-integer conversion truncates toward zero (C cast semantics used
by `ndarray.astype`). -/
def truncQ (x : ℚ) : ℤ :=
  if 0 ≤ x then ⌊x⌋ else ⌈x⌉

/-- `astype` to an integer dtype of `width` bits wraps modulo `2 ^ width`
(two's complement reinterpretation for signed types). -/
def castWrapInt (width : ℕ) (signed : Bool) (z : ℤ) : ℤ :=
  let m := z % (2 ^ width : ℤ)
  if signed ∧ (2 : ℤ) ^ (width - 1) ≤ m then m - 2 ^ width else m

/-- Smallest value representable in the integer dtype. -/
def intDtypeMin (width : ℕ) (signed : Bool) : ℤ :=
  if signed then -(2 ^ (width - 1)) else 0

/-- Largest value representable in the integer dtype. -/
def intDtypeMax (width : ℕ) (signed : Bool) : ℤ :=
  if signed then 2 ^ (width - 1) - 1 else 2 ^ width - 1

/-- A numpy dtype as far as `to_dtype` distinguishes them: an integer type
(with width and signedness) or a floating type. -/
inductive NpDtype where
  | int (width : ℕ) (signed : Bool)
  | float
deriving DecidableEq, Repr

/-- `to_dtype(x, dtype)` on one accumulation value: integer dtypes apply
`np.rint` and then cast; floating dtypes cast directly (exact on the values
considered here). -/
def to_dtype (x : ℚ) (d : NpDtype) : ℚ :=
  match d with
  | .int w s => ((castWrapInt w s (truncQ (rintQ x)) : ℤ) : ℚ)
  | .float => x

/- ## fuse_runner.py, `FuseRunner.output_shape` (lines 70-84) -/

/-- The depth computed by the `output_shape` property:
`thickness = full_thickness`; if `zmax` is set, `thickness -= (thickness - zmax)`;
then `thickness -= zmin`. -/
def outputThickness (fullThickness zmin : ℤ) (zmax : Option ℤ) : ℤ :=
  let t := fullThickness
  let t := match zmax with
    | none => t
    | some z => t - (t - z)
  t - zmin

/-- The `output_shape` property: start from the first tile's `f.shape`, set
index `0` to the computed thickness, index `-2` to `fm.full_height` and
index `-1` to `fm.full_width`. -/
def output_shape (firstTileShape : List ℤ) (fullThickness zmin : ℤ) (zmax : Option ℤ)
    (fullHeight fullWidth : ℤ) : List ℤ :=
  let s := firstTileShape.set 0 (outputThickness fullThickness zmin zmax)
  let s := s.set (s.length - 2) fullHeight
  s.set (s.length - 1) fullWidth

/- ## fuse_runner.py, `FuseRunner.run` -/

/-- The BigTIFF decision (lines 91-93):
`bigtiff = True if total_byte_size > 0.95 * 2**32 else False`.
The double closest to `0.95 * 2**32` lies strictly between the integers
`4080218931` and `4080218932`, so for the integer byte sizes the code
compares, the exact rational comparison below decides identically to the
float comparison in Python. -/
def bigtiffDecision (totalByteSize : ℤ) : Bool :=
  decide ((totalByteSize : ℚ) > 95 / 100 * 2 ^ 32)

/-- Origin normalization (lines 87-89): subtract the column minimum from each
of the `Xs`, `Ys`, `Zs` columns.  `colMin f ts` is `df[key].min()` for the
column read by `f`. -/
def colMin (f : Tile → ℤ) : List Tile → ℤ
  | [] => 0
  | t :: ts => ts.foldl (fun m u => min m (f u)) (f t)

/-- The in-place mutation `df[key] -= df[key].min()` for the three origin
columns, applied to the tile table. -/
def normalizeTiles (ts : List Tile) : List Tile :=
  let mX := colMin Tile.Xs ts
  let mY := colMin Tile.Ys ts
  let mZ := colMin Tile.Zs ts
  ts.map fun t => { t with Xs := t.Xs - mX, Ys := t.Ys - mY, Zs := t.Zs - mZ }

/-- The depth partition (lines 95-106, python name `partial_thickness`):
`n_loops = D // n` whole chunks of thickness `n`, plus the remainder chunk
`D % n` when it is nonzero. -/
def chunkThicknesses (D n : ℤ) : List ℤ :=
  List.replicate (D / n).toNat n ++ (if D % n ≠ 0 then [D % n] else [])

/-- The chunk windows traversed by the loop over thicknesses: each iteration
sets `zmax = zmin + thickness` and finally advances `zmin` by the thickness. -/
def chunkWindows (z0 : ℤ) : List ℤ → List (ℤ × ℤ)
  | [] => []
  | t :: ts => (z0, z0 + t) :: chunkWindows (z0 + t) ts

/-- Overlap clipping (lines 150-158): keep the rows with
`Z_from <= z_to` and `Z_to >= z_from`, shift both bounds by `-z_from`, then
set the negative `Z_from` entries to `0`. -/
def clipOverlaps (zFrom zTo : ℤ) (os : List Overlap) : List Overlap :=
  let kept := os.filter fun o => decide (o.Z_from ≤ zTo) && decide (o.Z_to ≥ zFrom)
  let shifted := kept.map fun o => Overlap.mk (o.Z_from - zFrom) (o.Z_to - zFrom)
  shifted.map fun o => if o.Z_from < 0 then Overlap.mk 0 o.Z_to else o

/-- Modelled from the claim wording, for comparison with `clipOverlaps`:
keep exactly the overlaps whose Z-range intersects the half-open interval
`[zFrom, zTo)`, shift by `-zFrom`, clamp negative `Z_from` to `0`. -/
def specClipOverlaps (zFrom zTo : ℤ) (os : List Overlap) : List Overlap :=
  (os.filter fun o => decide (max o.Z_from zFrom < min o.Z_to zTo)).map
    fun o => Overlap.mk (max (o.Z_from - zFrom) 0) (o.Z_to - zFrom)

/-- The per-tile body of the chunk loop (lines 122-160): compute
`z_to` (capped at `nfrms`), skip if `z_to <= 0`; compute `z_from` (clamped at
`0`), skip if `z_from >= z_to`; otherwise read tile frames `[z_from, z_to)`,
compute `top_left = (Zs + z_from - zmin, Ys, Xs)` and the clipped overlaps. -/
def tilePlacement (ovs : List Overlap) (zmin : ℤ) (zmax : Option ℤ) (t : Tile) :
    Option Placement :=
  let zTo0 := match zmax with
    | none => t.nfrms
    | some z => z - t.Zs
  let zTo := if zTo0 > t.nfrms then t.nfrms else zTo0
  if zTo ≤ 0 then none
  else
    let zFrom0 := zmin - t.Zs
    let zFrom := if zFrom0 < 0 then 0 else zFrom0
    if zFrom ≥ zTo then none
    else some { zFrom := zFrom, zTo := zTo,
                topLeft := (t.Zs + zFrom - zmin, t.Ys, t.Xs),
                overlaps := clipOverlaps zFrom zTo ovs }

/-- The queue puts produced by iterating the tile table for one chunk. -/
def chunkTileEvents (overlapsOf : ℕ → List Overlap) (zmin zmax : ℤ)
    (tiles : List Tile) : List Event :=
  tiles.enum.flatMap fun it =>
    match tilePlacement (overlapsOf it.1) zmin (some zmax) it.2 with
    | none => []
    | some p => [Event.enqueue it.1 p.zFrom p.zTo p.topLeft p.overlaps]

/-- One iteration of `for thickness in partial_thickness` (lines 113-174):
set `zmax = zmin + thickness`, allocate the chunk buffer, start the consumer,
enqueue the tile placements and the sentinel, join, append the converted
chunk, advance `zmin += thickness`. -/
def chunkStep (cfg : RunConfig) (tiles : List Tile) (bigtiff : Bool)
    (acc : List Event × RunnerState) (t : ℤ) : List Event × RunnerState :=
  let st := acc.2
  let zmax' := st.zmin + t
  let shape := output_shape cfg.firstTileShape cfg.fullThickness st.zmin (some zmax')
    cfg.fullHeight cfg.fullWidth
  (acc.1 ++ [Event.allocBuffer shape, Event.startConsumer]
        ++ chunkTileEvents cfg.overlapsOf st.zmin zmax' tiles
        ++ [Event.sentinel, Event.join, Event.append bigtiff],
   ⟨zmax', some zmax'⟩)

/-- `FuseRunner.run` (lines 86-176): normalize origins, decide `bigtiff`,
compute the partition of `output_shape[0]` by `n_frames_in_ram` (raising
`ZeroDivisionError` when the budget is zero), delete the output file, then
run the chunk loop.  Returns the event trace, the final window state and the
tile table after the in-place normalization. -/
def runModel (cfg : RunConfig) (s : RunnerState) :
    Except RunError (List Event × RunnerState × List Tile) :=
  let tiles := normalizeTiles cfg.tiles
  let shape0 := output_shape cfg.firstTileShape cfg.fullThickness s.zmin s.zmax
    cfg.fullHeight cfg.fullWidth
  let totalByteSize := shape0.prod * cfg.itemsize
  let bigtiff := bigtiffDecision totalByteSize
  let D := outputThickness cfg.fullThickness s.zmin s.zmax
  if cfg.nFramesInRam = 0 then Except.error RunError.zeroDivision
  else
    let ts := chunkThicknesses D cfg.nFramesInRam
    let r := ts.foldl (chunkStep cfg tiles bigtiff) ([Event.removeOutput], s)
    Except.ok (r.1, r.2, tiles)

/- ## tiffwrapper.py, `TiffWrapper` -/

/-- The state of an open `TiffWrapper`: `glob_mode` is directory mode,
`nfiles` is `len(self.flist)` (meaningful only in glob mode) and `pages` is
`len(self.tfile.pages)` of the opened (first) file.  The data-integrity
assumption of the table collaborator is that every physical file of a tile
has the same `pages` page count. -/
structure TiffWrapper where
  glob_mode : Bool
  nfiles : ℕ
  pages : ℕ
deriving DecidableEq, Repr

/-- `nfrms` property: page count, multiplied by the file count in glob
mode. -/
def TiffWrapper.nfrms (w : TiffWrapper) : ℕ :=
  if w.glob_mode then w.pages * w.nfiles else w.pages

/-- The error raised by the vendored `tifffile.imread` when handed an empty
file list: `ValueError('no files found')`.  In glob mode this happens
whenever `flist[start_frame // fpf : end_frame // fpf]` selects no file. -/
inductive TiffError where
  | noFilesFound
deriving DecidableEq, Repr

/-- The logical frame indices materialized by `slice(start_frame, end_frame)`
(lines 64-84): a direct range read in single-container mode; in glob mode the
whole files `flist[start_frame // frames_per_file : end_frame // frames_per_file]`
are read, and when that slice of the file list is empty — for the in-range
file indices a valid request produces, exactly when
`end_frame // fpf <= start_frame // fpf` — `tiff.imread` raises
`ValueError('no files found')` instead of returning an array. -/
def TiffWrapper.sliceFrames (w : TiffWrapper) (startFrame endFrame : ℕ) :
    Except TiffError (List ℕ) :=
  if w.glob_mode = false then
    Except.ok (List.range' startFrame (endFrame - startFrame))
  else
    let framesPerFile := w.nfrms / w.nfiles
    let startFile := startFrame / framesPerFile
    let endFile := endFrame / framesPerFile
    if endFile ≤ startFile then Except.error TiffError.noFilesFound
    else Except.ok (List.range' (startFile * framesPerFile)
      ((endFile - startFile) * framesPerFile))

/-- The shape of the array returned by a successful `slice`: the underlying
read yields the frame axis only when more than one frame is materialized (a
single frame comes back as a bare `frameDims` array), and
`np.expand_dims(a, axis=0)` prepends an axis of length `1` exactly when
`end_frame - start_frame == 1`; a failed read propagates its error and
returns no array at all. -/
def TiffWrapper.sliceShape (w : TiffWrapper) (frameDims : List ℕ) (s e : ℕ) :
    Except TiffError (List ℕ) :=
  match w.sliceFrames s e with
  | Except.error err => Except.error err
  | Except.ok frames =>
    let n := frames.length
    let base := if n = 1 then frameDims else n :: frameDims
    Except.ok (if e - s = 1 then 1 :: base else base)

/- ## Shared helper lemmas -/

lemma foldl_add_eq_add_sum (z0 : ℤ) (ts : List ℤ) :
    ts.foldl (· + ·) z0 = z0 + ts.sum := by
  induction ts generalizing z0 with
  | nil => simp
  | cons t ts ih => simp only [List.foldl_cons, List.sum_cons, ih]; ring

lemma chunkThicknesses_sum (D n : ℤ) (hn : 1 ≤ n) (hD : 0 ≤ D) :
    (chunkThicknesses D n).sum = D := by
  unfold chunkThicknesses
  have hq : 0 ≤ D / n := Int.ediv_nonneg hD (by omega)
  have hmod := Int.ediv_add_emod D n
  have hcomm : (D / n) * n = n * (D / n) := mul_comm _ _
  by_cases h : D % n = 0
  · simp only [h, ne_eq, not_true_eq_false, if_false, List.append_nil,
      List.sum_replicate, nsmul_eq_mul, Int.toNat_of_nonneg hq]
    linarith
  · simp only [h, ne_eq, not_false_eq_true, if_true, List.sum_append,
      List.sum_replicate, nsmul_eq_mul, Int.toNat_of_nonneg hq, List.sum_cons,
      List.sum_nil, add_zero]
    linarith

lemma chunkThicknesses_mem (D n : ℤ) (hn : 1 ≤ n) :
    ∀ t ∈ chunkThicknesses D n, 0 < t ∧ t ≤ n := by
  intro t ht
  unfold chunkThicknesses at ht
  rcases List.mem_append.1 ht with h | h
  · have h3 := List.eq_of_mem_replicate h
    constructor <;> omega
  · by_cases hm : D % n = 0
    · simp [hm] at h
    · simp only [hm, ne_eq, not_false_eq_true, if_true, List.mem_singleton] at h
      subst h
      have h1 : 0 ≤ D % n := Int.emod_nonneg D (by omega)
      have h2 : D % n < n := Int.emod_lt_of_pos D (by omega)
      omega

lemma chunkWindows_chain (z0 : ℤ) (ts : List ℤ) :
    List.Chain' (fun a b : ℤ × ℤ => a.2 = b.1) (chunkWindows z0 ts) := by
  induction ts generalizing z0 with
  | nil => simp [chunkWindows]
  | cons t ts ih =>
    rw [chunkWindows]
    refine List.chain'_cons'.2 ⟨?_, ih (z0 + t)⟩
    intro y hy
    cases ts with
    | nil => simp [chunkWindows] at hy
    | cons u us =>
      simp only [chunkWindows, List.head?_cons, Option.mem_def, Option.some.injEq] at hy
      subst hy
      rfl

lemma chunkWindows_mem_lt (z0 : ℤ) (ts : List ℤ) (hpos : ∀ t ∈ ts, 0 < t) :
    ∀ w ∈ chunkWindows z0 ts, w.1 < w.2 := by
  induction ts generalizing z0 with
  | nil => simp [chunkWindows]
  | cons t ts ih =>
    intro w hw
    rw [chunkWindows] at hw
    rcases List.mem_cons.1 hw with h | h
    · subst h
      have := hpos t (by simp)
      simpa using this
    · exact ih (z0 + t) (fun u hu => hpos u (by simp [hu])) w h

/-- C1: run() partitions the output depth D into D // n chunks of thickness n
plus one remainder chunk D % n when the division is inexact; the thicknesses
sum exactly to D, every chunk is nonempty and at most n thick, consecutive
chunk windows are contiguous (no gap, no overlap, strictly increasing Z), and
zmin advances by each chunk's thickness, ending at its start value plus D. -/
theorem fuseRunner_chunk_partition_c1 (D n z0 : ℤ) (hn : 1 ≤ n) (hD : 0 ≤ D) :
    (chunkThicknesses D n).sum = D ∧
    chunkThicknesses D n =
      List.replicate (D / n).toNat n ++ (if D % n ≠ 0 then [D % n] else []) ∧
    (∀ t ∈ chunkThicknesses D n, 0 < t ∧ t ≤ n) ∧
    List.Chain' (fun a b : ℤ × ℤ => a.2 = b.1) (chunkWindows z0 (chunkThicknesses D n)) ∧
    (∀ w ∈ chunkWindows z0 (chunkThicknesses D n), w.1 < w.2) ∧
    (chunkThicknesses D n).foldl (· + ·) z0 = z0 + D := by
  refine ⟨chunkThicknesses_sum D n hn hD, rfl, chunkThicknesses_mem D n hn,
    chunkWindows_chain z0 _, ?_, ?_⟩
  · exact chunkWindows_mem_lt z0 _ (fun t ht => (chunkThicknesses_mem D n hn t ht).1)
  · rw [foldl_add_eq_add_sum, chunkThicknesses_sum D n hn hD]

theorem fuseRunner_chunk_partition_c1_witness :
    (chunkThicknesses 10 4).sum = 10 ∧ chunkThicknesses 10 4 = [4, 4, 2] ∧
    chunkWindows 0 (chunkThicknesses 10 4) = [(0, 4), (4, 8), (8, 10)] ∧
    List.scanl (· + ·) 0 (chunkThicknesses 10 4) = [0, 4, 8, 10] :=
  ⟨(fuseRunner_chunk_partition_c1 10 4 0 (by decide) (by decide)).1,
   by decide, by decide, by decide⟩

/-- C2: inside a chunk window [zmin, zmax), the per-tile scheduling computes
z_to = min(zmax - Zs, nfrms) and z_from = max(zmin - Zs, 0); the tile yields
no placement exactly when z_to <= 0 or z_from >= z_to, and otherwise exactly
one placement reading tile-local frames [z_from, z_to) placed at
top_left = (Zs + z_from - zmin, Ys, Xs). -/
theorem fuseRunner_tile_window_c2 (ovs : List Overlap) (zmin zmax : ℤ) (t : Tile) :
    (tilePlacement ovs zmin (some zmax) t = none ↔
      min (zmax - t.Zs) t.nfrms ≤ 0 ∨
        max (zmin - t.Zs) 0 ≥ min (zmax - t.Zs) t.nfrms) ∧
    ∀ p, tilePlacement ovs zmin (some zmax) t = some p →
      p.zFrom = max (zmin - t.Zs) 0 ∧
      p.zTo = min (zmax - t.Zs) t.nfrms ∧
      p.topLeft = (t.Zs + max (zmin - t.Zs) 0 - zmin, t.Ys, t.Xs) ∧
      p.overlaps = clipOverlaps (max (zmin - t.Zs) 0) (min (zmax - t.Zs) t.nfrms) ovs := by
  have hto : (if zmax - t.Zs > t.nfrms then t.nfrms else zmax - t.Zs) =
      min (zmax - t.Zs) t.nfrms := by
    split <;> omega
  have hfrom : (if zmin - t.Zs < 0 then 0 else zmin - t.Zs) = max (zmin - t.Zs) 0 := by
    split <;> omega
  have key : tilePlacement ovs zmin (some zmax) t =
      (if min (zmax - t.Zs) t.nfrms ≤ 0 then none
       else if max (zmin - t.Zs) 0 ≥ min (zmax - t.Zs) t.nfrms then none
       else some { zFrom := max (zmin - t.Zs) 0, zTo := min (zmax - t.Zs) t.nfrms,
                   topLeft := (t.Zs + max (zmin - t.Zs) 0 - zmin, t.Ys, t.Xs),
                   overlaps := clipOverlaps (max (zmin - t.Zs) 0)
                     (min (zmax - t.Zs) t.nfrms) ovs }) := by
    simp only [tilePlacement, hto, hfrom]
  rw [key]
  by_cases h1 : min (zmax - t.Zs) t.nfrms ≤ 0
  · simp [h1]
  · by_cases h2 : max (zmin - t.Zs) 0 ≥ min (zmax - t.Zs) t.nfrms
    · simp [h1, h2]
    · simp only [h1, h2, if_false, Option.some.injEq]
      constructor
      · simp [h1, h2]
      · intro p hp
        subst hp
        exact ⟨rfl, rfl, rfl, rfl⟩

theorem fuseRunner_tile_window_c2_witness :
    Placement.zFrom ⟨2, 6, (0, 1, 3), []⟩ = max ((4 : ℤ) - 2) 0 ∧
    Placement.zTo ⟨2, 6, (0, 1, 3), []⟩ = min ((8 : ℤ) - 2) 10 := by
  have h := (fuseRunner_tile_window_c2 [] 4 8 ⟨0, 2, 1, 3, 10⟩).2
    ⟨2, 6, (0, 1, 3), []⟩ (by rfl)
  exact ⟨h.1, h.2.1⟩

/-- C3 counterexample: the overlap (Z_from, Z_to) = (5, 7) does not intersect
the half-open interval [0, 5) — its range starts at the window's exclusive
end — yet the code's filter `Z_from <= z_to and Z_to >= z_from` keeps it, so
the forwarded set is not exactly the overlaps intersecting [z_from, z_to). -/
theorem fuseRunner_overlap_clip_c3_counterexample :
    clipOverlaps 0 5 [⟨5, 7⟩] = [⟨5, 7⟩] ∧
    specClipOverlaps 0 5 [⟨5, 7⟩] = [] ∧
    ([Overlap.mk 5 7] : List Overlap) ≠ [] := by
  refine ⟨?_, ?_, by decide⟩ <;> decide

/-- C3 (amended): the forwarded overlap set consists exactly of the overlaps
with `Z_from <= z_to` and `Z_to >= z_from` — for a nonempty window and
well-formed overlaps this is intersection of the closed range [Z_from, Z_to]
with the closed interval [z_from, z_to], so overlaps touching the window only
at its exclusive end `z_to` (or at `z_from` with `Z_to = z_from`) are kept
too — each shifted by -z_from with a negative shifted Z_from clamped to 0;
an overlap fully inside [z_from, z_to) keeps its bounds unchanged except for
the shift. -/
theorem fuseRunner_overlap_clip_c3 (zf zt : ℤ) (os : List Overlap) :
    clipOverlaps zf zt os =
      (os.filter fun o => decide (o.Z_from ≤ zt ∧ zf ≤ o.Z_to)).map
        (fun o => Overlap.mk (max (o.Z_from - zf) 0) (o.Z_to - zf)) ∧
    (zf ≤ zt → ∀ o : Overlap, o.Z_from ≤ o.Z_to →
      ((o.Z_from ≤ zt ∧ zf ≤ o.Z_to) ↔ max o.Z_from zf ≤ min o.Z_to zt)) ∧
    ∀ o ∈ os, zf ≤ o.Z_from → o.Z_from ≤ o.Z_to → o.Z_to ≤ zt →
      Overlap.mk (o.Z_from - zf) (o.Z_to - zf) ∈ clipOverlaps zf zt os := by
  have hfil : ∀ o : Overlap,
      (decide (o.Z_from ≤ zt) && decide (o.Z_to ≥ zf)) =
        decide (o.Z_from ≤ zt ∧ zf ≤ o.Z_to) := by
    intro o
    rw [← Bool.decide_and, decide_eq_decide]
  have heq : clipOverlaps zf zt os =
      (os.filter fun o => decide (o.Z_from ≤ zt ∧ zf ≤ o.Z_to)).map
        (fun o => Overlap.mk (max (o.Z_from - zf) 0) (o.Z_to - zf)) := by
    unfold clipOverlaps
    rw [List.map_map, List.filter_congr (fun o _ => hfil o)]
    refine List.map_congr_left ?_
    intro o _
    simp only [Function.comp_apply]
    split <;> (rw [Overlap.mk.injEq]; constructor <;> omega)
  refine ⟨heq, ?_, ?_⟩
  · intro hw o hwf
    omega
  · intro o ho h1 h2 h3
    rw [heq]
    refine List.mem_map.2 ⟨o, List.mem_filter.2 ⟨ho, ?_⟩, ?_⟩
    · simpa using (by omega : o.Z_from ≤ zt ∧ zf ≤ o.Z_to)
    · rw [Overlap.mk.injEq]
      constructor <;> omega

theorem fuseRunner_overlap_clip_c3_witness :
    Overlap.mk 1 2 ∈ clipOverlaps 1 4 [⟨2, 3⟩] := by
  have h := (fuseRunner_overlap_clip_c3 1 4 [⟨2, 3⟩]).2.2 ⟨2, 3⟩
    (by simp) (by decide) (by decide) (by decide)
  simpa using h

/-- C4 counterexample: with full_thickness = 10, zmin = 0 and zmax = 15 the
code computes depth 15 (`thickness -= (thickness - zmax)` leaves exactly
`zmax`, unclamped), while the claim's `min(full_thickness, zmax) - zmin`
would give 10. -/
theorem fuseRunner_output_shape_c4_counterexample :
    output_shape [12, 100, 110] 10 0 (some 15) 200 300 = [15, 200, 300] ∧
    min (10 : ℤ) 15 - 0 = 10 ∧ (15 : ℤ) ≠ 10 := by
  exact ⟨by decide, by decide, by decide⟩

/-- C4 (amended): with zmax set, output_shape() has the same length as the
first tile's shape; its depth (index 0) is `zmax - zmin` with no clamping to
full_thickness — equal to `min(full_thickness, zmax) - zmin` exactly when
`zmax <= full_thickness` — its index `len - 2` is the full height, its index
`len - 1` is the full width, and every other index keeps the first tile's
extent. -/
theorem fuseRunner_output_shape_c4 (fshape : List ℤ) (full zmin z fh fw : ℤ)
    (hlen : 3 ≤ fshape.length) :
    (output_shape fshape full zmin (some z) fh fw).length = fshape.length ∧
    (output_shape fshape full zmin (some z) fh fw)[0]? = some (z - zmin) ∧
    (z ≤ full →
      (output_shape fshape full zmin (some z) fh fw)[0]? = some (min full z - zmin)) ∧
    (output_shape fshape full zmin (some z) fh fw)[fshape.length - 2]? = some fh ∧
    (output_shape fshape full zmin (some z) fh fw)[fshape.length - 1]? = some fw ∧
    (∀ i, 0 < i → i < fshape.length - 2 →
      (output_shape fshape full zmin (some z) fh fw)[i]? = fshape[i]?) := by
  have hthick : outputThickness full zmin (some z) = z - zmin := by
    show full - (full - z) - zmin = z - zmin
    omega
  have hL : (output_shape fshape full zmin (some z) fh fw).length = fshape.length := by
    simp [output_shape, List.length_set]
  refine ⟨hL, ?_, ?_, ?_, ?_, ?_⟩
  · simp only [output_shape, List.getElem?_set, List.length_set, hthick]
    rw [if_neg (by omega), if_neg (by omega), if_pos trivial, if_pos (by omega)]
  · intro hz
    rw [min_eq_right hz]
    simp only [output_shape, List.getElem?_set, List.length_set, hthick]
    rw [if_neg (by omega), if_neg (by omega), if_pos trivial, if_pos (by omega)]
  · simp only [output_shape, List.getElem?_set, List.length_set]
    rw [if_neg (by omega), if_pos trivial, if_pos (by omega)]
  · simp only [output_shape, List.getElem?_set, List.length_set]
    rw [if_pos trivial, if_pos (by omega)]
  · intro i h0 h2
    simp only [output_shape, List.getElem?_set, List.length_set]
    rw [if_neg (by omega), if_neg (by omega), if_neg (by omega)]

theorem fuseRunner_output_shape_c4_witness :
    (output_shape [12, 100, 110] 10 1 (some 9) 200 300)[0]? = some ((9 : ℤ) - 1) ∧
    (output_shape [12, 100, 110] 10 1 (some 9) 200 300)[1]? = some 200 := by
  have h := fuseRunner_output_shape_c4 [12, 100, 110] 10 1 9 200 300 (by decide)
  exact ⟨h.2.1, h.2.2.2.1⟩

/-- C5: when the memory budget computation yields `frames_per_chunk` below 1
(that is, `n_frames_in_ram = 0`), run() aborts with the fatal error raised at
`output_shape[0] // n_frames_in_ram` — before the output-file deletion, any
buffer allocation, any consumer start and any file append, none of which
occur. -/
theorem fuseRunner_zero_budget_c5 (cfg : RunConfig) (s : RunnerState)
    (h : cfg.nFramesInRam = 0) :
    runModel cfg s = Except.error RunError.zeroDivision ∧
    ∀ tr s' ts', runModel cfg s ≠ Except.ok (tr, s', ts') := by
  have herr : runModel cfg s = Except.error RunError.zeroDivision := by
    simp [runModel, h]
  exact ⟨herr, fun tr s' ts' hok => by rw [herr] at hok; exact Except.noConfusion hok⟩

/-- A configuration whose memory budget is zero frames per chunk. -/
def cfgZeroBudget : RunConfig :=
  { fullThickness := 10, firstTileShape := [10, 4, 4], fullHeight := 4, fullWidth := 4,
    itemsize := 2, nFramesInRam := 0, tiles := [⟨0, 0, 0, 0, 10⟩],
    overlapsOf := fun _ => [] }

theorem fuseRunner_zero_budget_c5_witness :
    runModel cfgZeroBudget ⟨0, none⟩ = Except.error RunError.zeroDivision :=
  (fuseRunner_zero_budget_c5 cfgZeroBudget ⟨0, none⟩ rfl).1

lemma append_not_mem_chunkTileEvents (ov : ℕ → List Overlap) (zmin zmax : ℤ)
    (tiles : List Tile) (b : Bool) :
    Event.append b ∉ chunkTileEvents ov zmin zmax tiles := by
  intro h
  simp only [chunkTileEvents, List.mem_flatMap] at h
  obtain ⟨it, _, hmem⟩ := h
  cases htp : tilePlacement (ov it.1) zmin (some zmax) it.2 <;>
    rw [htp] at hmem <;> simp at hmem

lemma append_mem_chunkStep_foldl (cfg : RunConfig) (tiles : List Tile) (b : Bool)
    (ts : List ℤ) (ev0 : List Event) (st : RunnerState) (b' : Bool)
    (h : Event.append b' ∈ (ts.foldl (chunkStep cfg tiles b) (ev0, st)).1) :
    Event.append b' ∈ ev0 ∨ b' = b := by
  induction ts generalizing ev0 st with
  | nil => exact Or.inl h
  | cons t ts ih =>
    rw [List.foldl_cons] at h
    rcases ih _ _ h with h' | h'
    · simp only [chunkStep, List.mem_append, List.mem_cons, List.not_mem_nil,
        or_false] at h'
      rcases h' with ((hin | hev) | htile) | hend
      · exact Or.inl hin
      · rcases hev with hev | hev <;> exact absurd hev (by simp)
      · exact absurd htile (append_not_mem_chunkTileEvents _ _ _ _ _)
      · rcases hend with hend | hend | hend
        · exact absurd hend (by simp)
        · exact absurd hend (by simp)
        · exact Or.inr (by injection hend)
    · exact Or.inr h'

/-- C6: the BigTIFF variant is selected exactly when the total output byte
size strictly exceeds `0.95 * 2**32` (for integer byte sizes: at least
4080218932 bytes); no integer byte size can equal the non-integer threshold
exactly, so the spec's exact-equality boundary scenario is vacuous, and the
first realizable size at or above the threshold does select BigTIFF while the
last one below it does not; the decision is computed once from the pre-run
output shape and every file append of the run carries that same flag. -/
theorem fuseRunner_bigtiff_c6 :
    (∀ sz : ℤ, bigtiffDecision sz = true ↔ 5 * sz > 20401094656) ∧
    (∀ sz : ℤ, (sz : ℚ) ≠ 95 / 100 * 2 ^ 32) ∧
    (∀ sz : ℤ, (sz : ℚ) = 95 / 100 * 2 ^ 32 → bigtiffDecision sz = true) ∧
    bigtiffDecision 4080218932 = true ∧
    bigtiffDecision 4080218931 = false ∧
    (∀ cfg s tr s' ts' b, runModel cfg s = Except.ok (tr, s', ts') →
      Event.append b ∈ tr →
      b = bigtiffDecision
        ((output_shape cfg.firstTileShape cfg.fullThickness s.zmin s.zmax
          cfg.fullHeight cfg.fullWidth).prod * cfg.itemsize)) := by
  have hthr : (95 / 100 * 2 ^ 32 : ℚ) = 20401094656 / 5 := by norm_num
  have hiff : ∀ sz : ℤ, bigtiffDecision sz = true ↔ 5 * sz > 20401094656 := by
    intro sz
    rw [bigtiffDecision, decide_eq_true_eq, hthr, gt_iff_lt, div_lt_iff₀ (by norm_num)]
    constructor
    · intro h
      exact_mod_cast (by linarith : (20401094656 : ℚ) < 5 * (sz : ℚ))
    · intro h
      have : (20401094656 : ℚ) < 5 * (sz : ℚ) := by exact_mod_cast h
      linarith
  have hnoeq : ∀ sz : ℤ, (sz : ℚ) ≠ 95 / 100 * 2 ^ 32 := by
    intro sz h
    rw [hthr] at h
    have h5 : (5 * sz : ℤ) = 20401094656 := by
      have : 5 * (sz : ℚ) = 20401094656 := by
        rw [h]; ring_nf
      exact_mod_cast this
    omega
  refine ⟨hiff, hnoeq, fun sz h => absurd h (hnoeq sz), ?_, ?_, ?_⟩
  · exact (hiff 4080218932).2 (by norm_num)
  · rw [← Bool.not_eq_true, hiff 4080218931]
    norm_num
  · intro cfg s tr s' ts' b hok hmem
    by_cases hn : cfg.nFramesInRam = 0
    · simp [runModel, hn] at hok
    · simp only [runModel, hn, if_false] at hok
      injection hok with h
      injection h with h1 h2
      subst h1
      rcases append_mem_chunkStep_foldl cfg (normalizeTiles cfg.tiles) _ _ _ _ b hmem
        with hin | hb
      · exact absurd hin (by simp)
      · exact hb

theorem fuseRunner_bigtiff_c6_witness :
    bigtiffDecision 5000000000 = true :=
  (fuseRunner_bigtiff_c6.1 5000000000).2 (by norm_num)

/-- C7 counterexample: a two-file tile with two pages per file (4 logical
frames) and the valid request [1, 3) — the code reads whole files over
`[1 // 2, 3 // 2) = [0, 1)`, i.e. frames [0, 2), not the requested frames
[1, 3); and the equally valid request [2, 3) selects the empty file range
`[1, 1)`, on which `tiff.imread` raises ValueError('no files found') rather
than returning a volume with a leading frame axis. -/
theorem tiffwrapper_slice_c7_counterexample :
    TiffWrapper.nfrms ⟨true, 2, 2⟩ = 4 ∧
    TiffWrapper.sliceFrames ⟨true, 2, 2⟩ 1 3 = Except.ok [0, 1] ∧
    (Except.ok [0, 1] : Except TiffError (List ℕ)) ≠
      Except.ok (List.range' 1 (3 - 1)) ∧
    TiffWrapper.sliceFrames ⟨true, 2, 2⟩ 2 3 = Except.error TiffError.noFilesFound := by
  refine ⟨by decide, rfl, ?_, rfl⟩
  intro h
  injection h with h'
  exact absurd h' (by decide)

/-- C7 (amended): for a valid request `start < end <= frame_count()`,
single-container mode returns exactly the logical frames [start, end).  Glob
mode reads whole files over `[start // fpf, end // fpf)` with
`fpf = nfrms // nfiles` (the per-file page count): when that file range is
empty (`start // fpf == end // fpf`, a sub-file request strictly inside one
file) the read raises ValueError('no files found') and returns nothing;
otherwise it returns the logical frames
`[(start // fpf) * fpf, (end // fpf) * fpf)` — equal to [start, end) exactly
when fpf divides both start and end, in particular always in the
single-frame-files case fpf = 1.  In the degenerate case
`end - start == 1`, whenever the read succeeds the result still carries an
explicit leading frame axis of length 1. -/
theorem tiffwrapper_slice_c7 (w : TiffWrapper) (dims : List ℕ) (s e : ℕ)
    (hpages : 1 ≤ w.pages) (hfiles : 1 ≤ w.nfiles) (hse : s < e)
    (he : e ≤ w.nfrms) :
    (w.glob_mode = false → w.sliceFrames s e = Except.ok (List.range' s (e - s))) ∧
    (w.glob_mode = true →
      w.nfrms / w.nfiles = w.pages ∧
      (s / w.pages = e / w.pages →
        w.sliceFrames s e = Except.error TiffError.noFilesFound) ∧
      (s / w.pages < e / w.pages →
        w.sliceFrames s e = Except.ok (List.range'
          (s / w.pages * w.pages) ((e / w.pages - s / w.pages) * w.pages))) ∧
      (w.sliceFrames s e = Except.ok (List.range' s (e - s)) ↔
        w.pages ∣ s ∧ w.pages ∣ e) ∧
      (w.pages = 1 → w.sliceFrames s e = Except.ok (List.range' s (e - s)))) ∧
    (e - s = 1 → ∀ sh, w.sliceShape dims s e = Except.ok sh → sh.headI = 1) := by
  refine ⟨?_, ?_, ?_⟩
  · intro hg
    simp [TiffWrapper.sliceFrames, hg]
  · intro hg
    have hfpf : w.nfrms / w.nfiles = w.pages := by
      simp only [TiffWrapper.nfrms, hg, if_true]
      exact Nat.mul_div_cancel w.pages (by omega)
    have hform : w.sliceFrames s e =
        (if e / w.pages ≤ s / w.pages then Except.error TiffError.noFilesFound
         else Except.ok (List.range' (s / w.pages * w.pages)
           ((e / w.pages - s / w.pages) * w.pages))) := by
      simp [TiffWrapper.sliceFrames, hg, hfpf]
    have hiff : w.sliceFrames s e = Except.ok (List.range' s (e - s)) ↔
        w.pages ∣ s ∧ w.pages ∣ e := by
      constructor
      · intro hEq
        rcases Nat.lt_or_ge (s / w.pages) (e / w.pages) with hlt | hge
        · rw [hform, if_neg (by omega)] at hEq
          injection hEq with hEq'
          have hlen := congrArg List.length hEq'
          simp only [List.length_range'] at hlen
          have hne : e - s ≠ 0 := by omega
          have hmem : s / w.pages * w.pages ∈ List.range' s (e - s) := by
            rw [← hEq']
            exact List.mem_range'_1.2 ⟨le_refl _, by omega⟩
          have hsle := (List.mem_range'_1.1 hmem).1
          have hsge : s / w.pages * w.pages ≤ s := Nat.div_mul_le_self s w.pages
          have hs : s / w.pages * w.pages = s := by omega
          have hdivle : s / w.pages ≤ e / w.pages := Nat.div_le_div_right (by omega)
          have hemul : e / w.pages * w.pages ≤ e := Nat.div_mul_le_self e w.pages
          have hsub : (e / w.pages - s / w.pages) * w.pages =
              e / w.pages * w.pages - s / w.pages * w.pages := Nat.sub_mul _ _ _
          have hmul : s / w.pages * w.pages ≤ e / w.pages * w.pages :=
            Nat.mul_le_mul_right _ hdivle
          have heq2 : e / w.pages * w.pages = e := by omega
          exact ⟨⟨s / w.pages, by rw [mul_comm]; exact hs.symm⟩,
            ⟨e / w.pages, by rw [mul_comm]; exact heq2.symm⟩⟩
        · rw [hform, if_pos (by omega)] at hEq
          exact absurd hEq (by simp)
      · rintro ⟨hs, hev⟩
        have h1 : s / w.pages * w.pages = s := Nat.div_mul_cancel hs
        have h2 : e / w.pages * w.pages = e := Nat.div_mul_cancel hev
        have hlt : s / w.pages < e / w.pages := by
          have h3 : s / w.pages * w.pages < e / w.pages * w.pages := by
            rw [h1, h2]; exact hse
          exact lt_of_mul_lt_mul_right h3 (Nat.zero_le _)
        rw [hform, if_neg (by omega), h1, Nat.sub_mul, h1, h2]
    refine ⟨hfpf, ?_, ?_, hiff, ?_⟩
    · intro heq
      rw [hform, if_pos (by omega)]
    · intro hlt
      rw [hform, if_neg (by omega)]
    · intro h1
      exact hiff.2 ⟨by rw [h1]; exact one_dvd _, by rw [h1]; exact one_dvd _⟩
  · intro hd sh hsh
    unfold TiffWrapper.sliceShape at hsh
    cases hfr : w.sliceFrames s e with
    | error err =>
      rw [hfr] at hsh
      exact absurd hsh (by simp)
    | ok frames =>
      rw [hfr] at hsh
      rw [hd] at hsh
      dsimp only at hsh
      injection hsh with hsh'
      rw [← hsh', if_pos rfl]
      rfl

theorem tiffwrapper_slice_c7_witness :
    TiffWrapper.sliceFrames ⟨true, 3, 1⟩ 1 3 = Except.ok (List.range' 1 (3 - 1)) :=
  (((tiffwrapper_slice_c7 ⟨true, 3, 1⟩ [] 1 3 (by decide) (by decide) (by decide)
    (by decide)).2.1 rfl).2.2.2.2) rfl

lemma foldl_min_sub (f : Tile → ℤ) (c : ℤ) (l : List Tile) (a : ℤ) :
    l.foldl (fun m u => min m (f u - c)) (a - c) =
      l.foldl (fun m u => min m (f u)) a - c := by
  induction l generalizing a with
  | nil => simp
  | cons u l ih =>
    simp only [List.foldl_cons]
    rw [show min (a - c) (f u - c) = min a (f u) - c by omega]
    exact ih _

lemma colMin_sub (f : Tile → ℤ) (c : ℤ) (ts : List Tile) (h : ts ≠ []) :
    colMin (fun t => f t - c) ts = colMin f ts - c := by
  cases ts with
  | nil => exact absurd rfl h
  | cons t l =>
    simp only [colMin]
    exact foldl_min_sub f c l (f t)

lemma colMin_map (f : Tile → ℤ) (g : Tile → Tile) (ts : List Tile) :
    colMin f (ts.map g) = colMin (fun t => f (g t)) ts := by
  cases ts with
  | nil => rfl
  | cons t l =>
    simp only [colMin, List.map_cons]
    rw [List.foldl_map]

lemma runModel_tiles (cfg : RunConfig) (s : RunnerState) (tr : List Event)
    (s' : RunnerState) (ts' : List Tile)
    (hok : runModel cfg s = Except.ok (tr, s', ts')) :
    ts' = normalizeTiles cfg.tiles := by
  by_cases hn : cfg.nFramesInRam = 0
  · simp [runModel, hn] at hok
  · simp only [runModel, hn, if_false] at hok
    injection hok with h
    injection h with h1 h2
    injection h2 with h2a h2b
    exact h2b.symm

/-- C8 counterexample: run() mutates the tile table in place — a single tile
loaded with origin Zs = 3 has Zs = 0 after a successful run(), so the
origins are not the same after run() as they were when loaded. -/
def cfgC8 : RunConfig :=
  { fullThickness := 0, firstTileShape := [0, 4, 4], fullHeight := 4, fullWidth := 4,
    itemsize := 2, nFramesInRam := 5, tiles := [⟨0, 3, 0, 0, 5⟩],
    overlapsOf := fun _ => [] }

theorem fuseRunner_tile_immutable_c8_counterexample :
    runModel cfgC8 ⟨0, none⟩ =
      Except.ok ([Event.removeOutput], ⟨0, none⟩, [⟨0, 0, 0, 0, 5⟩]) ∧
    cfgC8.tiles = [⟨0, 3, 0, 0, 5⟩] ∧
    ([Tile.mk 0 0 0 0 5] : List Tile) ≠ [Tile.mk 0 3 0 0 5] :=
  ⟨rfl, rfl, by decide⟩

/-- C8 (amended): run() does modify the origin fields of the loaded tile
records: it subtracts the per-axis column minimum from every Xs, Ys, Zs
(in-place normalization); path and nfrms are never modified; the origins are
unchanged exactly when the per-axis minima are already zero, and the
normalization is idempotent, so after a first run() the table's minima are
zero and further normalizations leave it unchanged. -/
theorem fuseRunner_tile_immutable_c8 (cfg : RunConfig) (s : RunnerState)
    (ts : List Tile) (h : ts ≠ []) :
    (∀ tr s' ts', runModel cfg s = Except.ok (tr, s', ts') →
      ts' = normalizeTiles cfg.tiles) ∧
    (normalizeTiles ts).map Tile.path = ts.map Tile.path ∧
    (normalizeTiles ts).map Tile.nfrms = ts.map Tile.nfrms ∧
    (normalizeTiles ts).map Tile.Zs = ts.map (fun t => t.Zs - colMin Tile.Zs ts) ∧
    (normalizeTiles ts).map Tile.Ys = ts.map (fun t => t.Ys - colMin Tile.Ys ts) ∧
    (normalizeTiles ts).map Tile.Xs = ts.map (fun t => t.Xs - colMin Tile.Xs ts) ∧
    colMin Tile.Zs (normalizeTiles ts) = 0 ∧
    colMin Tile.Ys (normalizeTiles ts) = 0 ∧
    colMin Tile.Xs (normalizeTiles ts) = 0 ∧
    (normalizeTiles ts = ts ↔
      colMin Tile.Xs ts = 0 ∧ colMin Tile.Ys ts = 0 ∧ colMin Tile.Zs ts = 0) ∧
    normalizeTiles (normalizeTiles ts) = normalizeTiles ts := by
  have hmapZ : colMin Tile.Zs (normalizeTiles ts) = 0 := by
    have h1 : colMin Tile.Zs (normalizeTiles ts) =
        colMin (fun t : Tile => t.Zs - colMin Tile.Zs ts) ts :=
      colMin_map Tile.Zs _ ts
    rw [h1, colMin_sub Tile.Zs (colMin Tile.Zs ts) ts h]
    omega
  have hmapY : colMin Tile.Ys (normalizeTiles ts) = 0 := by
    have h1 : colMin Tile.Ys (normalizeTiles ts) =
        colMin (fun t : Tile => t.Ys - colMin Tile.Ys ts) ts :=
      colMin_map Tile.Ys _ ts
    rw [h1, colMin_sub Tile.Ys (colMin Tile.Ys ts) ts h]
    omega
  have hmapX : colMin Tile.Xs (normalizeTiles ts) = 0 := by
    have h1 : colMin Tile.Xs (normalizeTiles ts) =
        colMin (fun t : Tile => t.Xs - colMin Tile.Xs ts) ts :=
      colMin_map Tile.Xs _ ts
    rw [h1, colMin_sub Tile.Xs (colMin Tile.Xs ts) ts h]
    omega
  have hid : ∀ us : List Tile, us ≠ [] →
      (colMin Tile.Xs us = 0 ∧ colMin Tile.Ys us = 0 ∧ colMin Tile.Zs us = 0) →
      normalizeTiles us = us := by
    intro us _ hmins
    obtain ⟨hx, hy, hz⟩ := hmins
    simp only [normalizeTiles, hx, hy, hz, sub_zero]
    exact List.map_id us
  have hiff : normalizeTiles ts = ts ↔
      colMin Tile.Xs ts = 0 ∧ colMin Tile.Ys ts = 0 ∧ colMin Tile.Zs ts = 0 := by
    constructor
    · intro hEq
      have hx := hmapX
      have hy := hmapY
      have hz := hmapZ
      rw [hEq] at hx hy hz
      exact ⟨hx, hy, hz⟩
    · exact hid ts h
  refine ⟨fun tr s' ts' hok => runModel_tiles cfg s tr s' ts' hok, ?_, ?_, ?_, ?_, ?_,
    hmapZ, hmapY, hmapX, hiff, ?_⟩
  · simp [normalizeTiles]
  · simp [normalizeTiles]
  · simp [normalizeTiles]
  · simp [normalizeTiles]
  · simp [normalizeTiles]
  · exact hid (normalizeTiles ts) (by simp [normalizeTiles, h]) ⟨hmapX, hmapY, hmapZ⟩

theorem fuseRunner_tile_immutable_c8_witness :
    colMin Tile.Zs (normalizeTiles [⟨0, 3, 0, 0, 5⟩]) = 0 ∧
    (normalizeTiles [⟨0, 3, 0, 0, 5⟩]).map Tile.nfrms =
      ([⟨0, 3, 0, 0, 5⟩] : List Tile).map Tile.nfrms := by
  have h := fuseRunner_tile_immutable_c8 cfgC8 ⟨0, none⟩ [⟨0, 3, 0, 0, 5⟩] (by simp)
  exact ⟨h.2.2.2.2.2.2.1, h.2.2.1⟩

lemma rintQ_intCast (n : ℤ) : rintQ ((n : ℤ) : ℚ) = (n : ℚ) := by
  unfold rintQ
  simp only [Int.floor_intCast, sub_self]
  rw [if_pos (by norm_num)]

lemma truncQ_intCast (n : ℤ) : truncQ ((n : ℤ) : ℚ) = n := by
  unfold truncQ
  split <;> simp

lemma castWrapInt_of_mem (w : ℕ) (sgn : Bool) (n : ℤ) (hw : 1 ≤ w)
    (hlo : intDtypeMin w sgn ≤ n) (hhi : n ≤ intDtypeMax w sgn) :
    castWrapInt w sgn n = n := by
  have h2 : (2 : ℤ) ^ w = 2 * 2 ^ (w - 1) := by
    rw [← pow_succ']
    congr 1
    omega
  have hp : (0 : ℤ) < 2 ^ (w - 1) := pow_pos (by norm_num) _
  cases sgn with
  | false =>
    simp only [intDtypeMin, intDtypeMax, if_false, Bool.false_eq_true] at hlo hhi
    unfold castWrapInt
    rw [Int.emod_eq_of_lt hlo (by omega)]
    simp
  | true =>
    simp only [intDtypeMin, intDtypeMax, if_true] at hlo hhi
    unfold castWrapInt
    by_cases hn : 0 ≤ n
    · rw [Int.emod_eq_of_lt hn (by omega)]
      rw [if_neg (by simp; omega)]
    · have hm : n % 2 ^ w = n + 2 ^ w := by
        have h1 : (n + 2 ^ w) % 2 ^ w = n % 2 ^ w := by
          simp [Int.add_emod]
        rw [← h1, Int.emod_eq_of_lt (by omega) (by omega)]
      rw [hm, if_pos (by simp; omega)]
      omega

/-- C9: an accumulation value that is an exact integer representable in the
configured integer output dtype survives the conversion unchanged — the
round to nearest (`np.rint`) fixes integers, and the cast is exact in
range — while a floating output dtype is cast directly with no rounding
step. -/
theorem to_dtype_roundtrip_c9 (x : ℚ) (n : ℤ) (w : ℕ) (sgn : Bool)
    (hw : 1 ≤ w) (hx : x = (n : ℚ))
    (hlo : intDtypeMin w sgn ≤ n) (hhi : n ≤ intDtypeMax w sgn) :
    to_dtype x (NpDtype.int w sgn) = (n : ℚ) ∧ to_dtype x NpDtype.float = x := by
  subst hx
  refine ⟨?_, rfl⟩
  show ((castWrapInt w sgn (truncQ (rintQ ((n : ℤ) : ℚ))) : ℤ) : ℚ) = ((n : ℤ) : ℚ)
  rw [rintQ_intCast, truncQ_intCast, castWrapInt_of_mem w sgn n hw hlo hhi]

theorem to_dtype_roundtrip_c9_witness :
    to_dtype 7 (NpDtype.int 8 false) = ((7 : ℤ) : ℚ) ∧
    to_dtype 7 NpDtype.float = 7 :=
  to_dtype_roundtrip_c9 7 7 8 false (by decide) (by norm_num) (by decide) (by decide)

lemma chunkStep_foldl_state (cfg : RunConfig) (tiles : List Tile) (b : Bool)
    (ts : List ℤ) (p : List Event × RunnerState) (h : ts ≠ []) :
    (ts.foldl (chunkStep cfg tiles b) p).2 =
      ⟨p.2.zmin + ts.sum, some (p.2.zmin + ts.sum)⟩ := by
  induction ts generalizing p with
  | nil => exact absurd rfl h
  | cons t ts ih =>
    rw [List.foldl_cons]
    cases ts with
    | nil =>
      simp [chunkStep]
    | cons u us =>
      rw [ih (chunkStep cfg tiles b p t) (by simp)]
      have hz : (chunkStep cfg tiles b p t).2.zmin = p.2.zmin + t := rfl
      rw [hz, List.sum_cons, List.sum_cons,
        show p.2.zmin + t + (u + us.sum) = p.2.zmin + (t + (u + us.sum)) from by ring,
        List.sum_cons]

lemma chunkThicknesses_ne_nil (D n : ℤ) (hn : 1 ≤ n) (hD : 0 < D) :
    chunkThicknesses D n ≠ [] := by
  unfold chunkThicknesses
  by_cases hm : D % n = 0
  · simp only [hm, ne_eq, not_true_eq_false, if_false, List.append_nil]
    have hmod := Int.ediv_add_emod D n
    have hq0 : 0 ≤ D / n := Int.ediv_nonneg (by omega) (by omega)
    have hq : 1 ≤ D / n := by
      rcases lt_or_ge (D / n) 1 with hlt | hge
      · have hq0' : D / n = 0 := by omega
        rw [hq0', mul_zero] at hmod
        omega
      · exact hge
    intro hnil
    have hlen := congrArg List.length hnil
    simp only [List.length_replicate, List.length_nil] at hlen
    omega
  · intro hnil
    simp [hm] at hnil

lemma chunkThicknesses_zero (n : ℤ) : chunkThicknesses 0 n = [] := by
  simp [chunkThicknesses, Int.zero_ediv, Int.zero_emod]

lemma outputThickness_self (full z : ℤ) : outputThickness full z (some z) = 0 := by
  show full - (full - z) - z = 0
  omega

lemma runModel_empty_depth (cfg : RunConfig) (s : RunnerState)
    (hn : ¬cfg.nFramesInRam = 0)
    (h0 : outputThickness cfg.fullThickness s.zmin s.zmax = 0) :
    runModel cfg s = Except.ok ([Event.removeOutput], s, normalizeTiles cfg.tiles) := by
  simp only [runModel]
  rw [if_neg hn, h0, chunkThicknesses_zero]
  rfl

/-- C10: run() mutates the window state instead of restoring it — after a
successful run over a positive depth D, zmin has advanced by exactly D and
zmax equals that final zmin, so the window is empty; a second run() on the
resulting state computes output depth 0, still deletes the previously
written output file, and appends nothing: run() is not idempotent. -/
theorem fuseRunner_window_mutation_c10 (cfg : RunConfig) (s : RunnerState)
    (hn : 1 ≤ cfg.nFramesInRam)
    (hD : 0 < outputThickness cfg.fullThickness s.zmin s.zmax) :
    ∃ tr : List Event,
      runModel cfg s = Except.ok (tr,
        ⟨s.zmin + outputThickness cfg.fullThickness s.zmin s.zmax,
         some (s.zmin + outputThickness cfg.fullThickness s.zmin s.zmax)⟩,
        normalizeTiles cfg.tiles) ∧
      outputThickness cfg.fullThickness
        (s.zmin + outputThickness cfg.fullThickness s.zmin s.zmax)
        (some (s.zmin + outputThickness cfg.fullThickness s.zmin s.zmax)) = 0 ∧
      runModel { cfg with tiles := normalizeTiles cfg.tiles }
          ⟨s.zmin + outputThickness cfg.fullThickness s.zmin s.zmax,
           some (s.zmin + outputThickness cfg.fullThickness s.zmin s.zmax)⟩ =
        Except.ok ([Event.removeOutput],
          ⟨s.zmin + outputThickness cfg.fullThickness s.zmin s.zmax,
           some (s.zmin + outputThickness cfg.fullThickness s.zmin s.zmax)⟩,
          normalizeTiles (normalizeTiles cfg.tiles)) ∧
      ∀ b : Bool, Event.append b ∉ ([Event.removeOutput] : List Event) := by
  have hne := chunkThicknesses_ne_nil (outputThickness cfg.fullThickness s.zmin s.zmax)
    cfg.nFramesInRam hn hD
  have hsum := chunkThicknesses_sum (outputThickness cfg.fullThickness s.zmin s.zmax)
    cfg.nFramesInRam hn (le_of_lt hD)
  have h1 : runModel cfg s = Except.ok (
      (List.foldl (chunkStep cfg (normalizeTiles cfg.tiles)
        (bigtiffDecision ((output_shape cfg.firstTileShape cfg.fullThickness s.zmin s.zmax
          cfg.fullHeight cfg.fullWidth).prod * cfg.itemsize)))
        ([Event.removeOutput], s)
        (chunkThicknesses (outputThickness cfg.fullThickness s.zmin s.zmax)
          cfg.nFramesInRam)).1,
      ⟨s.zmin + outputThickness cfg.fullThickness s.zmin s.zmax,
       some (s.zmin + outputThickness cfg.fullThickness s.zmin s.zmax)⟩,
      normalizeTiles cfg.tiles) := by
    simp only [runModel]
    rw [if_neg (by omega)]
    rw [chunkStep_foldl_state _ _ _ _ _ hne, hsum]
  refine ⟨_, h1, outputThickness_self cfg.fullThickness
    (s.zmin + outputThickness cfg.fullThickness s.zmin s.zmax), ?_, ?_⟩
  · exact runModel_empty_depth
      { cfg with tiles := normalizeTiles cfg.tiles }
      ⟨s.zmin + outputThickness cfg.fullThickness s.zmin s.zmax,
       some (s.zmin + outputThickness cfg.fullThickness s.zmin s.zmax)⟩
      (show ¬cfg.nFramesInRam = 0 by omega)
      (outputThickness_self cfg.fullThickness
        (s.zmin + outputThickness cfg.fullThickness s.zmin s.zmax))
  · intro b
    simp

/-- A small healthy configuration: depth 10, one tile, budget 4 frames. -/
def cfgDemo : RunConfig :=
  { fullThickness := 10, firstTileShape := [10, 4, 4], fullHeight := 4, fullWidth := 4,
    itemsize := 2, nFramesInRam := 4, tiles := [⟨0, 0, 0, 0, 10⟩],
    overlapsOf := fun _ => [] }

theorem fuseRunner_window_mutation_c10_witness :
    (runModel cfgDemo ⟨0, none⟩).isOk = true := by
  obtain ⟨tr, h1, -, -, -⟩ :=
    fuseRunner_window_mutation_c10 cfgDemo ⟨0, none⟩ (by decide) (by decide)
  rw [h1]
  rfl
